import Mathlib

/-!
Verification of the voice-keyboard transcript synchronizer and streaming
STT client (shallow embedding of `src/virtual_keyboard.rs` and
`src/stt_client.rs`).

Strings are modelled as `List Char`.  Rust's `str::starts_with` and byte
slicing at the tracked-text boundary coincide with character-level prefix
tests and drops, because UTF-8 decoding is deterministic and per-character
prefix-free; the code's own common-prefix computation is already
character-based (`chars().zip(...).take_while(...)`).
-/

/-- One abstract key operation issued through the `KeyboardHardware` trait:
`type_text` is a sequence of `typeChar` operations (one per character, as the
real backend iterates `text.chars()`), `press_backspace` is `backspace`, and
`press_enter` is `enter`. -/
inductive KeyOp where
  | typeChar (c : Char)
  | backspace
  | enter
deriving DecidableEq

/-- `type_text` issues one character operation per character of its argument. -/
def typeText (s : List Char) : List KeyOp :=
  s.map KeyOp.typeChar

def KeyOp.isBackspace : KeyOp → Bool
  | .backspace => true
  | _ => false

def KeyOp.isTypeChar : KeyOp → Bool
  | .typeChar _ => true
  | _ => false

def KeyOp.isEnter : KeyOp → Bool
  | .enter => true
  | _ => false

/-- Number of backspace operations in a trace. -/
def countBackspaces (ops : List KeyOp) : Nat :=
  ops.countP KeyOp.isBackspace

/-- Number of typed-character operations in a trace. -/
def countTyped (ops : List KeyOp) : Nat :=
  ops.countP KeyOp.isTypeChar

/-- Number of commit (Enter-key) operations in a trace. -/
def countEnters (ops : List KeyOp) : Nat :=
  ops.countP KeyOp.isEnter

/-- The common-prefix length computed by `update_transcript`:
`current_text.chars().zip(new.chars()).take_while(|(a, b)| a == b).count()`. -/
def commonPrefixLength : List Char → List Char → Nat
  | a :: as_, b :: bs => if a = b then commonPrefixLength as_ bs + 1 else 0
  | _, _ => 0

/-- `VirtualKeyboard::update_transcript`, as the pair (operations issued to the
hardware, tracked text afterwards).  The three branches mirror the source:
empty transcript clears everything via `backspace_current_text` (one backspace
per character); an extension types only the appended suffix; otherwise the
common prefix is kept, the differing tail is backspaced and the new ending is
typed.  The hardware never fails (mock semantics), so the `Result` layer is
dropped. -/
def update_transcript (current_text new_transcript : List Char) :
    List KeyOp × List Char :=
  if new_transcript = [] then
    (List.replicate current_text.length KeyOp.backspace, [])
  else if current_text.isPrefixOf new_transcript then
    (typeText (new_transcript.drop current_text.length), new_transcript)
  else
    (List.replicate (current_text.length - commonPrefixLength current_text new_transcript)
        KeyOp.backspace
      ++ typeText (new_transcript.drop (commonPrefixLength current_text new_transcript)),
     new_transcript)

/-- The regex character class `\s` (Unicode `White_Space`), enumerated
exactly as the `regex` crate defines it. -/
def isSpaceChar (c : Char) : Bool :=
  let v := c.toNat
  (9 ≤ v && v ≤ 13) || v == 32 || v == 0x85 || v == 0xA0 || v == 0x1680 ||
  (0x2000 ≤ v && v ≤ 0x200A) || v == 0x2028 || v == 0x2029 || v == 0x202F ||
  v == 0x205F || v == 0x3000

/-- The POSIX class `[[:punct:]]` used in `finalize_transcript`, which is
ASCII-only by definition: code points 33-47, 58-64, 91-96 and 123-126
(underscore is included). -/
def isPunctChar (c : Char) : Bool :=
  let v := c.toNat
  (33 ≤ v && v ≤ 47) || (58 ≤ v && v ≤ 64) || (91 ≤ v && v ≤ 96) ||
  (123 ≤ v && v ≤ 126)

/-- The restriction of the regex crate's Unicode word-character class `\w`
(`Alphabetic`, marks, `Nd`, `Pc`, `Join_Control`) to the ASCII range, where
it is exactly alphanumeric-or-underscore: `Alphabetic` meets ASCII in
`A`-`Z`/`a`-`z`, `Nd` in `0`-`9`, `Pc` in the underscore, and the mark and
`Join_Control` classes have no ASCII members.  The matcher itself is
parameterized by the full class (see `enterTail`); this concrete function is
only used to evaluate the all-ASCII example strings, which consult `\w` at
ASCII characters alone. -/
def asciiWordChar (c : Char) : Bool :=
  c.isAlphanum || c == '_'

/-- Case-insensitive comparison against the letters of "enter": the regex's
`(?i)` folding for `e`, `n`, `t`, `r` is exactly the ASCII case pair. -/
def caseE (c : Char) : Bool := c == 'e' || c == 'E'

def caseN (c : Char) : Bool := c == 'n' || c == 'N'

def caseT (c : Char) : Bool := c == 't' || c == 'T'

def caseR (c : Char) : Bool := c == 'r' || c == 'R'

/-- Whether the pattern `(?i)\s*\benter\b[[:punct:]\s]*$` matches the whole
suffix `t`.  `isWordChar` is the regex crate's Unicode word-character class
`\w`, which decides the `\b` boundaries; its full code-point table is not
enumerated here, so every definition and theorem is parameterized by it and
holds for the actual table in particular.  `prevOkForBoundary` says the
character just before `t` (if any) is not a word character, which is what
the first `\b` needs when `\s*` consumes nothing; when `\s*` consumes at
least one character the preceding whitespace character is never a word
character (the Unicode `White_Space` and `\w` classes are disjoint), so the
boundary holds.  The run consumed by `\s*` is forced to be the full leading
whitespace run because `e`/`E` is not whitespace.  The second `\b` needs the
character right after "enter" (if any) to be a non-word character, and `$`
forces the remaining characters to lie in `[[:punct:]\s]`. -/
def enterTail (isWordChar : Char → Bool) (prevOkForBoundary : Bool) (w : Nat) :
    List Char → Bool
  | c1 :: c2 :: c3 :: c4 :: c5 :: rest =>
      caseE c1 && caseN c2 && caseT c3 && caseE c4 && caseR c5 &&
      (decide (0 < w) || prevOkForBoundary) &&
      (match rest with
        | [] => true
        | d :: _ => !isWordChar d) &&
      rest.all (fun d => isPunctChar d || isSpaceChar d)
  | _ => false

def matchCore (isWordChar : Char → Bool) (prevOkForBoundary : Bool)
    (t : List Char) : Bool :=
  enterTail isWordChar prevOkForBoundary (t.takeWhile isSpaceChar).length
    (t.drop (t.takeWhile isSpaceChar).length)

/-- Whether `finalize_transcript`'s regex matches `s` starting at character
position `j` (the match is always anchored to the end of the string). -/
def matchAtPos (isWordChar : Char → Bool) (s : List Char) (j : Nat) : Bool :=
  matchCore isWordChar
    (match (s.take j).getLast? with
      | none => true
      | some p => !isWordChar p)
    (s.drop j)

/-- `Regex::find` on the pattern of `finalize_transcript`: the starting
position of the leftmost match, if any.  Because the pattern is anchored at
`$`, a match starting at `j` always extends to the end of the string. -/
def findEnterStart (isWordChar : Char → Bool) (s : List Char) : Option Nat :=
  (List.range (s.length + 1)).find? (fun j => matchAtPos isWordChar s j)

/-- `VirtualKeyboard::finalize_transcript` as (operations issued, tracked text
afterwards), parameterized by the word-character class the regex's `\b` uses.
On a match starting at `j` the code backspaces once per character of the
matched suffix (`m.as_str().chars().count()` characters), truncates the
tracked text to the match start, presses Enter once, and then clears the
tracked text; without a match it only clears the tracked text. -/
def finalize_transcript (isWordChar : Char → Bool) (current_text : List Char) :
    List KeyOp × List Char :=
  match findEnterStart isWordChar current_text with
  | some j =>
      (List.replicate (current_text.length - j) KeyOp.backspace ++ [KeyOp.enter], [])
  | none => ([], [])

/-- The specification's wording for the finalize trigger: the tracked text
ends with the case-insensitive whole word "enter", optionally preceded by
whitespace and optionally followed by a run of punctuation and/or whitespace
anchored at the end; whole-word means no word character directly borders the
matched word on either side, with respect to the same word-character class
`isWordChar` the regex's `\b` uses. -/
def EndsWithEnterCommand (isWordChar : Char → Bool) (s : List Char) : Prop :=
  ∃ (pre ws tail : List Char) (c1 c2 c3 c4 c5 : Char),
    s = pre ++ ws ++ [c1, c2, c3, c4, c5] ++ tail ∧
    (∀ c ∈ ws, isSpaceChar c = true) ∧
    caseE c1 = true ∧ caseN c2 = true ∧ caseT c3 = true ∧
    caseE c4 = true ∧ caseR c5 = true ∧
    (∀ c ∈ tail, isPunctChar c = true ∨ isSpaceChar c = true) ∧
    (ws = [] → pre = [] ∨ ∃ p, pre.getLast? = some p ∧ isWordChar p = false) ∧
    (∀ d, tail.head? = some d → isWordChar d = false)

/-- One call into the synchronizer. -/
inductive KbCall where
  | update (t : List Char)
  | finalize

/-- The operations a call issues when the tracked text is `cur`
(`isWordChar` is the word-character class `finalize_transcript`'s regex
uses). -/
def callOps (isWordChar : Char → Bool) (cur : List Char) : KbCall → List KeyOp
  | .update t => (update_transcript cur t).1
  | .finalize => (finalize_transcript isWordChar cur).1

/-- The tracked text after a call. -/
def callNext (isWordChar : Char → Bool) (cur : List Char) : KbCall → List Char
  | .update t => (update_transcript cur t).2
  | .finalize => (finalize_transcript isWordChar cur).2

/-- Step of the synchronizer run, also accumulating the operations issued
since the last reset (a `finalize` call resets the tracked text for a fresh
turn, so it clears the accumulator). -/
def stepTrace (isWordChar : Char → Bool) (st : List Char × List KeyOp)
    (c : KbCall) : List Char × List KeyOp :=
  match c with
  | .update t => ((update_transcript st.1 t).2, st.2 ++ (update_transcript st.1 t).1)
  | .finalize => ((finalize_transcript isWordChar st.1).2, [])

/-- Run a sequence of calls from a freshly constructed synchronizer
(empty tracked text), returning the tracked text and the operations issued
since the last reset. -/
def runCalls (isWordChar : Char → Bool) (calls : List KbCall) :
    List Char × List KeyOp :=
  calls.foldl (stepTrace isWordChar) ([], [])

/-- Replay a trace of key operations on an initially empty screen region:
typing appends a character, a backspace removes the last character — and is
`none` (underflow) if it would erase a character the synchronizer did not
itself cause to be typed — and the commit key does not change the text. -/
def stackEval : List Char → List KeyOp → Option (List Char)
  | st, [] => some st
  | st, KeyOp.typeChar c :: ops => stackEval (st ++ [c]) ops
  | [], KeyOp.backspace :: _ => none
  | st, KeyOp.backspace :: ops => stackEval st.dropLast ops
  | st, KeyOp.enter :: ops => stackEval st ops

/-- `WordInfo` from the wire schema.  `confidence` is an `f64` payload that
is only carried through, never computed with, so it is modelled as an opaque
integer tag. -/
structure WordInfo where
  word : String
  confidence : Int
deriving DecidableEq

/-- `TranscriptionResult` as handed to the `on_transcription` callback.  The
`f64` fields (`start`, `timestamp`, `end_of_turn_confidence`) are payload
carried through unchanged and are modelled as opaque integer tags. -/
structure TranscriptionResult where
  event : String
  turn_index : Nat
  start : Int
  timestamp : Int
  transcript : String
  words : List WordInfo
  end_of_turn_confidence : Int
deriving DecidableEq

/-- The tagged `ServerMessage` union (`type` discriminator selects among
`Connected`, `TurnInfo`, `Error`, `Configuration`). -/
inductive ServerMessage where
  | connected (request_id : String) (sequence_id : Nat)
  | turnInfo (request_id : String) (sequence_id : Nat) (event : String)
      (turn_index : Nat) (audio_window_start audio_window_end : Int)
      (transcript : String) (words : List WordInfo)
      (end_of_turn_confidence : Int)
  | error (sequence_id : Option Nat) (code : String) (description : String)
      (websocket_close_code : Option Nat)
  | configuration (eot_threshold preflight_threshold : Option Int)
deriving DecidableEq

/-- One inbound event seen by the receive loop.  `serde_json` parsing of a
text frame is abstracted into its outcome: `textOk m` is a text frame that
parses as `ServerMessage` `m`, and `textBad` is a text frame that fails to
parse (malformed JSON or an unknown `type` discriminator, which the tagged
deserializer rejects).  `other` covers`Ping`/`Pong`/`Frame`, the wildcard arm
the loop ignores, and `readErr` is a transport-level read error. -/
inductive InboundEvent where
  | textOk (m : ServerMessage)
  | textBad (raw : String)
  | binary
  | close
  | other
  | readErr (e : String)
deriving DecidableEq

/-- The body of `receive_task` as a function of the inbound event sequence:
the list of `TranscriptionResult`s delivered to the callback, in order, and
the task's outcome.  `Connected` and `Configuration` are informational,
`TurnInfo` is mapped to a result and delivered, `Error` / a parse failure /
a binary frame / a read error terminate the loop with an error, and a close
frame ends it successfully. -/
def receive_task : List InboundEvent → List TranscriptionResult × Except String Unit
  | [] => ([], .ok ())
  | ev :: rest =>
    match ev with
    | .textOk (.connected _ _) => receive_task rest
    | .textOk (.configuration _ _) => receive_task rest
    | .textOk (.error _ code description _) =>
        ([], .error ("server error: " ++ code ++ " - " ++ description))
    | .textOk (.turnInfo _ _ event turn_index aws awe transcript words eotc) =>
        ({ event := event, turn_index := turn_index, start := aws,
           timestamp := awe, transcript := transcript, words := words,
           end_of_turn_confidence := eotc } :: (receive_task rest).1,
         (receive_task rest).2)
    | .textBad _ => ([], .error "invalid server JSON")
    | .binary => ([], .error "received binary data--this isn't expected")
    | .close => ([], .ok ())
    | .other => receive_task rest
    | .readErr e => ([], .error e)

/-- The inbound events that are fatal to the receive loop. -/
def fatalEvent : InboundEvent → Bool
  | .textOk (.error _ _ _ _) => true
  | .textBad _ => true
  | .binary => true
  | .readErr _ => true
  | _ => false

/-- An outbound frame.  `closeConn` (closing the underlying connection) is
representable but, as the theorems show, never produced by the sender. -/
inductive OutFrame where
  | binary (data : List Nat)
  | text (payload : String)
  | closeConn
deriving DecidableEq

/-- The final text control frame signalling end-of-audio. -/
def closeStreamMsg : String := "\x7b\"type\":\"CloseStream\"\x7d"

/-- The body of `send_task`: the audio queue's contents until it is closed
are `chunks`; `net i` is the outcome of the `i`-th `ws_sender.send` call.
Each queued chunk is forwarded as a binary frame; when the queue is
exhausted one `CloseStream` text frame is sent and the task stops without
closing the connection.  The first failing send ends the task with that
error (the failed frame is not emitted and nothing is retried). -/
def send_task (net : Nat → Except String Unit) :
    Nat → List (List Nat) → List OutFrame × Except String Unit
  | i, [] =>
      match net i with
      | .ok _ => ([OutFrame.text closeStreamMsg], .ok ())
      | .error e => ([], .error e)
  | i, c :: cs =>
      match net i with
      | .ok _ =>
          (OutFrame.binary c :: (send_task net (i + 1) cs).1,
           (send_task net (i + 1) cs).2)
      | .error e => ([], .error e)

/-- What the completion handle resolves with, given each sub-task's result.
The outer `Except` layer is `tokio::JoinError` (panic/abort), surfaced by the
final question-mark on `tokio::try_join!`; the inner layer is the sub-task's
own `Result`, which the binding of the pair to underscore-prefixed names
discards before the closure returns `Ok(())`. -/
def session_result (sr rr : Except String (Except String Unit)) :
    Except String Unit :=
  match sr, rr with
  | .error je, _ => .error je
  | _, .error je => .error je
  | .ok _, .ok _ => .ok ()

/-- The observable outcome of `connect_and_transcribe`'s pre-connection
phase: either it fails with the fatal configuration error (no network
attempt is made), or it proceeds to attempt the connection carrying the
optional `Authorization` header value shown. -/
inductive StartAction where
  | configError
  | connect (authHeader : Option (List Nat))
deriving DecidableEq

/-- Byte validity test of `http::HeaderValue::from_str`: a byte is legal in
a header value iff it is horizontal tab or at least 32 and not DEL. -/
def headerByteValid (b : Nat) : Bool :=
  (32 ≤ b && b != 127) || b == 9

/-- The bytes of the header value built from the secret: the bytes of
"Token " followed by the bytes of the key. -/
def tokenHeaderValue (key : List Nat) : List Nat :=
  [84, 111, 107, 101, 110, 32] ++ key

/-- The pre-connection phase of `connect_and_transcribe`.  `env` is the
`DEEPGRAM_API_KEY` environment lookup (`none` when unset, otherwise the
variable's bytes).  A present, non-empty key is turned into a Token-style
`Authorization` header; if the constructed value is not a valid header value
the function bails with a fatal configuration error before any connection is
attempted; otherwise the connection proceeds (without a header when the key
is absent or empty). -/
def connect_and_transcribe_start (env : Option (List Nat)) : StartAction :=
  match env with
  | some api_key =>
      if api_key ≠ [] then
        if (tokenHeaderValue api_key).all headerByteValid then
          .connect (some (tokenHeaderValue api_key))
        else
          .configError
      else
        .connect none
  | none => .connect none

/-- Little-endian serialization of one `i16` PCM sample
(`pcm_sample.to_le_bytes()`), on the two's-complement bit pattern. -/
def i16ToLeBytes (v : Int) : List Nat :=
  let u := (v % 65536).toNat
  [u % 256, u / 256]

/-- The PCM byte stream appended by one `add_samples` call.  Each `f32`
input sample deterministically yields one `i16` (clamp to [-1, 1], scale by
`i16::MAX`, truncate); since no claim constrains that float arithmetic, the
samples are taken as the resulting `i16` values, each contributing exactly
two little-endian bytes. -/
def pcmData (samples : List Int) : List Nat :=
  (samples.map i16ToLeBytes).flatten

/-- The chunk-extraction loop of `add_samples`: while the backlog holds at
least `chunk_size` bytes, drain the first `chunk_size` bytes into a chunk.
`fuel` is a termination bound (any value at least the backlog length is
exact, since each iteration removes at least one byte when `chunk_size` is
positive; the source loop does not terminate when `chunk_size` is zero, and
the guard keeps that degenerate case out). -/
def extractChunks (chunk_size : Nat) : Nat → List Nat → List (List Nat) × List Nat
  | 0, buf => ([], buf)
  | fuel + 1, buf =>
      if chunk_size ≤ buf.length ∧ 0 < chunk_size then
        ((buf.take chunk_size) :: (extractChunks chunk_size fuel (buf.drop chunk_size)).1,
         (extractChunks chunk_size fuel (buf.drop chunk_size)).2)
      else
        ([], buf)

/-- `AudioBuffer`: the byte backlog and the configured chunk size. -/
structure AudioBuffer where
  buffer : List Nat
  chunk_size : Nat
deriving DecidableEq

/-- `AudioBuffer::new`: 16-bit PCM chunk size
`sample_rate * chunk_duration_ms / 1000 * 2` and an empty backlog. -/
def AudioBuffer.new (sample_rate chunk_duration_ms : Nat) : AudioBuffer :=
  { buffer := [], chunk_size := sample_rate * chunk_duration_ms / 1000 * 2 }

/-- `AudioBuffer::add_samples`: append the PCM bytes of the new samples to
the backlog, then extract complete chunks.  Returns the chunks and the
buffer afterwards. -/
def AudioBuffer.add_samples (b : AudioBuffer) (samples : List Int) :
    List (List Nat) × AudioBuffer :=
  let buf := b.buffer ++ pcmData samples
  ((extractChunks b.chunk_size buf.length buf).1,
   { buffer := (extractChunks b.chunk_size buf.length buf).2,
     chunk_size := b.chunk_size })

theorem countP_replicate (p : KeyOp → Bool) (n : Nat) (o : KeyOp) :
    (List.replicate n o).countP p = if p o then n else 0 := by
  induction n with
  | zero => simp
  | succ k ih =>
    simp [List.replicate_succ, List.countP_cons, ih]
    by_cases h : p o <;> simp [h]

theorem countP_typeText_backspace (s : List Char) :
    (typeText s).countP KeyOp.isBackspace = 0 := by
  induction s with
  | nil => simp [typeText]
  | cons c cs ih => simp [typeText, List.countP_cons, KeyOp.isBackspace] at ih ⊢

theorem countP_typeText_typeChar (s : List Char) :
    (typeText s).countP KeyOp.isTypeChar = s.length := by
  induction s with
  | nil => simp [typeText]
  | cons c cs ih => simp [typeText, List.countP_cons, KeyOp.isTypeChar] at ih ⊢

theorem commonPrefixLength_nil_right (a : List Char) :
    commonPrefixLength a [] = 0 := by
  cases a <;> rfl

theorem commonPrefixLength_le_left (a b : List Char) :
    commonPrefixLength a b ≤ a.length := by
  induction a generalizing b with
  | nil => simp [commonPrefixLength]
  | cons x xs ih =>
    cases b with
    | nil => simp [commonPrefixLength]
    | cons y ys =>
      simp only [commonPrefixLength]
      by_cases h : x = y
      · simp [h, List.length_cons]
        exact ih ys
      · simp [h]

theorem commonPrefixLength_le_right (a b : List Char) :
    commonPrefixLength a b ≤ b.length := by
  induction a generalizing b with
  | nil => simp [commonPrefixLength]
  | cons x xs ih =>
    cases b with
    | nil => simp [commonPrefixLength]
    | cons y ys =>
      simp only [commonPrefixLength]
      by_cases h : x = y
      · simp [h, List.length_cons]
        exact ih ys
      · simp [h]

theorem commonPrefixLength_of_prefix (a b : List Char) (h : a <+: b) :
    commonPrefixLength a b = a.length := by
  induction a generalizing b with
  | nil => simp [commonPrefixLength]
  | cons x xs ih =>
    cases b with
    | nil => exact absurd (List.IsPrefix.length_le h) (by simp)
    | cons y ys =>
      obtain ⟨t, ht⟩ := h
      simp only [List.cons_append] at ht
      obtain ⟨rfl, hxs⟩ : x = y ∧ xs ++ t = ys := by
        constructor
        · exact (List.cons.injEq _ _ _ _ ▸ ht).1
        · exact (List.cons.injEq _ _ _ _ ▸ ht).2
      simp only [commonPrefixLength, if_pos rfl, List.length_cons]
      exact congrArg (· + 1) (ih ys ⟨t, hxs⟩)

theorem commonPrefixLength_take_eq (a b : List Char) :
    a.take (commonPrefixLength a b) = b.take (commonPrefixLength a b) := by
  induction a generalizing b with
  | nil => simp [commonPrefixLength]
  | cons x xs ih =>
    cases b with
    | nil => simp [commonPrefixLength]
    | cons y ys =>
      simp only [commonPrefixLength]
      by_cases h : x = y
      · simp only [if_pos h, List.take_succ_cons, h]
        exact congrArg (y :: ·) (ih ys)
      · simp [h]

theorem nil_of_isPrefixOf_nil (a : List Char) (h : a.isPrefixOf ([] : List Char)) :
    a = [] := by
  rw [List.isPrefixOf_iff_prefix] at h
  exact List.prefix_nil.mp h

/-- C1: for every pair of transcripts A (tracked) and B, `update_transcript B`
issues exactly `charLen A - commonPrefixLength A B` backspaces and types
exactly `charLen B - commonPrefixLength A B` characters; in particular a
prefix extension issues no backspace and the empty transcript issues exactly
`charLen A` backspaces; afterwards the tracked text equals B. -/
theorem update_transcript_minimal_edit (A B : List Char) :
    countBackspaces (update_transcript A B).1 = A.length - commonPrefixLength A B ∧
    countTyped (update_transcript A B).1 = B.length - commonPrefixLength A B ∧
    (update_transcript A B).2 = B ∧
    (A.isPrefixOf B → countBackspaces (update_transcript A B).1 = 0) ∧
    (B = [] → countBackspaces (update_transcript A B).1 = A.length) := by
  by_cases hB : B = []
  · subst hB
    have hA0 : commonPrefixLength A [] = 0 := commonPrefixLength_nil_right A
    refine ⟨?_, ?_, ?_, ?_, ?_⟩ <;>
      simp [update_transcript, countBackspaces, countTyped, hA0,
        countP_replicate, KeyOp.isBackspace, KeyOp.isTypeChar]
  · by_cases hP : A.isPrefixOf B
    · have hpre : A <+: B := List.isPrefixOf_iff_prefix.mp hP
      have hL : commonPrefixLength A B = A.length :=
        commonPrefixLength_of_prefix A B hpre
      refine ⟨?_, ?_, ?_, ?_, ?_⟩ <;>
        simp [update_transcript, hB, hP, hL, countBackspaces, countTyped,
          countP_typeText_backspace, countP_typeText_typeChar]
    · refine ⟨?_, ?_, ?_, ?_, ?_⟩ <;>
        simp [update_transcript, hB, hP, countBackspaces, countTyped,
          List.countP_append, countP_replicate, KeyOp.isBackspace,
          KeyOp.isTypeChar, countP_typeText_backspace, countP_typeText_typeChar]

/-- Witness for C1 at A = "hello", B = "help": 3-character common prefix,
two backspaces, one typed character; the prefix and empty-transcript side
conditions discharged at matching inputs. -/
theorem update_transcript_minimal_edit_witness :
    countBackspaces (update_transcript ("hello".toList) ("help".toList)).1 = 2 ∧
    countTyped (update_transcript ("hello".toList) ("help".toList)).1 = 1 ∧
    (update_transcript ("hello".toList) ("help".toList)).2 = "help".toList ∧
    countBackspaces (update_transcript ("he".toList) ("help".toList)).1 = 0 ∧
    countBackspaces (update_transcript ("hello".toList) []).1 = 5 := by
  refine ⟨?_, ?_, ?_, ?_, ?_⟩
  · have h := update_transcript_minimal_edit ("hello".toList) ("help".toList)
    rw [h.1]; decide
  · have h := update_transcript_minimal_edit ("hello".toList) ("help".toList)
    rw [h.2.1]; decide
  · exact (update_transcript_minimal_edit ("hello".toList) ("help".toList)).2.2.1
  · exact (update_transcript_minimal_edit ("he".toList) ("help".toList)).2.2.2.1
      (by decide)
  · rw [(update_transcript_minimal_edit ("hello".toList) []).2.2.2.2 rfl]
    decide

theorem stackEval_append (xs ys : List KeyOp) :
    ∀ st, stackEval st (xs ++ ys)
      = (stackEval st xs).bind (fun st2 => stackEval st2 ys) := by
  induction xs with
  | nil => intro st; simp [stackEval]
  | cons op xs ih =>
    intro st
    cases op with
    | typeChar c => simpa [stackEval] using ih (st ++ [c])
    | backspace =>
      cases st with
      | nil => simp [stackEval]
      | cons a l => simpa [stackEval] using ih ((a :: l).dropLast)
    | enter => simpa [stackEval] using ih st

theorem stackEval_typeText (s : List Char) :
    ∀ st, stackEval st (typeText s) = some (st ++ s) := by
  induction s with
  | nil => intro st; simp [typeText, stackEval]
  | cons c cs ih =>
    intro st
    simpa [typeText, stackEval] using ih (st ++ [c])

theorem stackEval_replicate_backspace (k : Nat) :
    ∀ st : List Char, k ≤ st.length →
      stackEval st (List.replicate k KeyOp.backspace)
        = some (st.take (st.length - k)) := by
  induction k with
  | zero => intro st _; simp [stackEval]
  | succ m ih =>
    intro st hk
    cases st with
    | nil => simp at hk
    | cons a l =>
      simp only [List.length_cons] at hk
      have hm : m ≤ (a :: l).dropLast.length := by
        simp [List.length_dropLast]; omega
      have step :
          stackEval (a :: l) (List.replicate (m + 1) KeyOp.backspace)
            = stackEval ((a :: l).dropLast) (List.replicate m KeyOp.backspace) := by
        simp [List.replicate_succ, stackEval]
      rw [step, ih _ hm]
      have h1 : (a :: l).dropLast.length = l.length := by simp
      have h2 : (a :: l).length - (m + 1) = l.length - m := by
        simp only [List.length_cons]; omega
      rw [h1, h2, List.dropLast_eq_take, List.take_take]
      have h3 : min (l.length - m) ((a :: l).length - 1) = l.length - m := by
        simp only [List.length_cons]; omega
      rw [h3]

theorem stackEval_update (cur t : List Char) :
    stackEval cur (update_transcript cur t).1 = some (update_transcript cur t).2 := by
  by_cases hB : t = []
  · subst hB
    simp [update_transcript]
    simpa using stackEval_replicate_backspace cur.length cur (le_refl _)
  · by_cases hP : cur.isPrefixOf t
    · have hpre : cur <+: t := List.isPrefixOf_iff_prefix.mp hP
      obtain ⟨r, hr⟩ := hpre
      simp only [update_transcript, if_neg hB, if_pos hP]
      rw [stackEval_typeText]
      subst hr
      simp
    · simp only [update_transcript, if_neg hB, if_neg hP]
      have hL : commonPrefixLength cur t ≤ cur.length :=
        commonPrefixLength_le_left cur t
      rw [stackEval_append,
        stackEval_replicate_backspace _ cur (Nat.sub_le _ _)]
      have hsub : cur.length - (cur.length - commonPrefixLength cur t)
          = commonPrefixLength cur t := by omega
      simp only [Option.some_bind, hsub, stackEval_typeText]
      rw [commonPrefixLength_take_eq cur t, List.take_append_drop]

theorem finalize_transcript_snd (isWordChar : Char → Bool) (cur : List Char) :
    (finalize_transcript isWordChar cur).2 = [] := by
  unfold finalize_transcript
  cases findEnterStart isWordChar cur <;> rfl

theorem runCalls_inv (isWordChar : Char → Bool) (calls : List KbCall) :
    ∀ st : List Char × List KeyOp, stackEval [] st.2 = some st.1 →
      stackEval [] (calls.foldl (stepTrace isWordChar) st).2
        = some (calls.foldl (stepTrace isWordChar) st).1 := by
  induction calls with
  | nil => intro st h; exact h
  | cons c cs ih =>
    intro st h
    refine ih (stepTrace isWordChar st c) ?_
    cases c with
    | update t =>
      simp only [stepTrace]
      rw [stackEval_append, h, Option.some_bind]
      exact stackEval_update st.1 t
    | finalize =>
      simp [stepTrace, stackEval, finalize_transcript_snd]

/-- C5: for every word-character class the finalize regex may use (so in
particular the regex crate's Unicode one), from a fresh synchronizer with
never-failing hardware the tracked text always equals the characters typed
minus the characters backspaced since the last reset (replaying the
since-reset operation trace on an empty region never underflows and lands
exactly on `current_text`), and no single call issues more backspaces than
the character length of the tracked text at the start of the call. -/
theorem synchronizer_invariant (isWordChar : Char → Bool) :
    (∀ calls : List KbCall,
        stackEval [] (runCalls isWordChar calls).2
          = some (runCalls isWordChar calls).1) ∧
    (∀ (cur : List Char) (c : KbCall),
        countBackspaces (callOps isWordChar cur c) ≤ cur.length) := by
  constructor
  · intro calls
    exact runCalls_inv isWordChar calls ([], []) rfl
  · intro cur c
    cases c with
    | update t =>
      by_cases hB : t = []
      · subst hB
        simp [callOps, update_transcript, countBackspaces, countP_replicate,
          KeyOp.isBackspace]
      · by_cases hP : cur.isPrefixOf t
        · simp [callOps, update_transcript, hB, hP, countBackspaces,
            countP_typeText_backspace]
        · simp [callOps, update_transcript, hB, hP, countBackspaces,
            List.countP_append, countP_replicate, KeyOp.isBackspace,
            countP_typeText_backspace]
    | finalize =>
      unfold callOps finalize_transcript
      cases findEnterStart isWordChar cur with
      | none => simp [countBackspaces]
      | some j =>
        simp [countBackspaces, List.countP_append, countP_replicate,
          KeyOp.isBackspace, List.countP_cons, KeyOp.isEnter]

theorem drop_length_takeWhile (p : Char → Bool) (l : List Char) :
    l.drop (l.takeWhile p).length = l.dropWhile p := by
  induction l with
  | nil => rfl
  | cons x xs ih =>
    by_cases hx : p x
    · simp [List.takeWhile_cons, List.dropWhile_cons, hx, ih]
    · simp [List.takeWhile_cons, List.dropWhile_cons, hx]

theorem takeWhile_all_prefix (p : Char → Bool) (ws u : List Char)
    (hws : ∀ c ∈ ws, p c = true) (hu : ∀ d, u.head? = some d → p d = false) :
    (ws ++ u).takeWhile p = ws := by
  induction ws with
  | nil =>
    cases u with
    | nil => rfl
    | cons d rest => simp [List.takeWhile_cons, hu d rfl]
  | cons x xs ih =>
    have hx : p x = true := hws x (by simp)
    simp only [List.cons_append, List.takeWhile_cons, hx, if_pos]
    exact congrArg (x :: ·) (ih (fun c hc => hws c (by simp [hc])))

theorem caseE_not_space (c : Char) (h : caseE c = true) : isSpaceChar c = false := by
  simp only [caseE, Bool.or_eq_true, beq_iff_eq] at h
  rcases h with rfl | rfl <;> decide

theorem matchCore_true_iff (isWordChar : Char → Bool) (prevOk : Bool)
    (t : List Char) :
    matchCore isWordChar prevOk t = true ↔
      ∃ (ws tail : List Char) (c1 c2 c3 c4 c5 : Char),
        t = ws ++ ([c1, c2, c3, c4, c5] ++ tail) ∧
        (∀ c ∈ ws, isSpaceChar c = true) ∧
        caseE c1 = true ∧ caseN c2 = true ∧ caseT c3 = true ∧
        caseE c4 = true ∧ caseR c5 = true ∧
        (∀ c ∈ tail, isPunctChar c = true ∨ isSpaceChar c = true) ∧
        (ws = [] → prevOk = true) ∧
        (∀ d, tail.head? = some d → isWordChar d = false) := by
  constructor
  · intro h
    unfold matchCore at h
    cases hu : t.drop (t.takeWhile isSpaceChar).length with
    | nil => rw [hu] at h; simp [enterTail] at h
    | cons c1 u1 =>
    rw [hu] at h
    cases u1 with
    | nil => simp [enterTail] at h
    | cons c2 u2 =>
    cases u2 with
    | nil => simp [enterTail] at h
    | cons c3 u3 =>
    cases u3 with
    | nil => simp [enterTail] at h
    | cons c4 u4 =>
    cases u4 with
    | nil => simp [enterTail] at h
    | cons c5 rest =>
    simp only [enterTail, Bool.and_eq_true, Bool.or_eq_true, decide_eq_true_eq,
      List.all_eq_true] at h
    obtain ⟨⟨⟨⟨⟨⟨⟨h1, h2⟩, h3⟩, h4⟩, h5⟩, hb⟩, hb2⟩, hall⟩ := h
    have hsplit : t = t.takeWhile isSpaceChar ++ ([c1, c2, c3, c4, c5] ++ rest) := by
      conv_lhs => rw [← List.takeWhile_append_dropWhile (p := isSpaceChar) (l := t)]
      rw [← drop_length_takeWhile isSpaceChar t, hu]
      rfl
    refine ⟨t.takeWhile isSpaceChar, rest, c1, c2, c3, c4, c5, hsplit,
      (fun c hc => List.mem_takeWhile_imp hc), h1, h2, h3, h4, h5, ?_, ?_, ?_⟩
    · intro c hc
      simpa [Bool.or_eq_true] using hall c hc
    · intro hws
      rcases hb with h0 | hp
      · rw [hws] at h0; simp at h0
      · exact hp
    · intro d hd
      cases rest with
      | nil => simp at hd
      | cons x r =>
        have hx : x = d := by simpa using hd
        subst hx
        simpa using hb2
  · rintro ⟨ws, tail, c1, c2, c3, c4, c5, rfl, hws, h1, h2, h3, h4, h5, htail, hb1, hb2⟩
    have htw : ((ws ++ ([c1, c2, c3, c4, c5] ++ tail)).takeWhile isSpaceChar) = ws :=
      takeWhile_all_prefix isSpaceChar ws ([c1, c2, c3, c4, c5] ++ tail) hws
        (by intro d hd
            have hc : c1 = d := by simpa using hd
            subst hc
            exact caseE_not_space c1 h1)
    unfold matchCore
    rw [htw, List.drop_left]
    show enterTail isWordChar prevOk ws.length (c1 :: c2 :: c3 :: c4 :: c5 :: tail)
      = true
    simp only [enterTail, Bool.and_eq_true, Bool.or_eq_true, decide_eq_true_eq,
      List.all_eq_true, h1, h2, h3, h4, h5, true_and]
    refine ⟨⟨?_, ?_⟩, ?_⟩
    · cases ws with
      | nil => exact Or.inr (hb1 rfl)
      | cons x l => exact Or.inl (by simp)
    · cases tail with
      | nil => simp
      | cons d r => simp [hb2 d rfl]
    · intro c hc
      rcases htail c hc with hp | hs
      · simp [hp]
      · simp [hs]

theorem endsWith_iff_exists_match (isWordChar : Char → Bool) (s : List Char) :
    EndsWithEnterCommand isWordChar s
      ↔ ∃ j, j ≤ s.length ∧ matchAtPos isWordChar s j = true := by
  constructor
  · rintro ⟨pre, ws, tail, c1, c2, c3, c4, c5, hs, hws, h1, h2, h3, h4, h5, htail, hb1, hb2⟩
    have hs' : s = pre ++ (ws ++ ([c1, c2, c3, c4, c5] ++ tail)) := by
      rw [hs]; simp [List.append_assoc]
    refine ⟨pre.length, ?_, ?_⟩
    · rw [hs']; simp
    · have htake : s.take pre.length = pre := by
        rw [hs']; exact List.take_left pre _
      have hdrop : s.drop pre.length = ws ++ ([c1, c2, c3, c4, c5] ++ tail) := by
        rw [hs']; exact List.drop_left pre _
      unfold matchAtPos
      rw [htake, hdrop]
      apply (matchCore_true_iff _ _ _).mpr
      refine ⟨ws, tail, c1, c2, c3, c4, c5, rfl, hws, h1, h2, h3, h4, h5, htail, ?_, hb2⟩
      intro hws0
      rcases hb1 hws0 with rfl | ⟨p, hp, hword⟩
      · simp
      · rw [hp]; simp [hword]
  · rintro ⟨j, hj, hm⟩
    unfold matchAtPos at hm
    obtain ⟨ws, tail, c1, c2, c3, c4, c5, hdrop, hws, h1, h2, h3, h4, h5, htail, hb1, hb2⟩ :=
      (matchCore_true_iff _ _ _).mp hm
    refine ⟨s.take j, ws, tail, c1, c2, c3, c4, c5, ?_, hws, h1, h2, h3, h4, h5, htail, ?_, hb2⟩
    · conv_lhs => rw [← List.take_append_drop j s]
      rw [hdrop]
      simp [List.append_assoc]
    · intro hws0
      cases hlast : (s.take j).getLast? with
      | none => exact Or.inl (List.getLast?_eq_none_iff.mp hlast)
      | some p =>
        refine Or.inr ⟨p, rfl, ?_⟩
        have := hb1 hws0
        rw [hlast] at this
        simpa using this

theorem findEnterStart_isSome_iff (isWordChar : Char → Bool) (s : List Char) :
    (findEnterStart isWordChar s).isSome = true
      ↔ EndsWithEnterCommand isWordChar s := by
  unfold findEnterStart
  rw [List.find?_isSome]
  constructor
  · rintro ⟨j, hjmem, hm⟩
    exact (endsWith_iff_exists_match isWordChar s).mpr
      ⟨j, Nat.lt_succ_iff.mp (List.mem_range.mp hjmem), hm⟩
  · intro h
    obtain ⟨j, hj, hm⟩ := (endsWith_iff_exists_match isWordChar s).mp h
    exact ⟨j, List.mem_range.mpr (Nat.lt_succ_of_le hj), hm⟩

theorem enterTail_congr (w w2 : Char → Bool) (prevOk : Bool) (n : Nat)
    (u : List Char) (hu : ∀ c ∈ u, w c = w2 c) :
    enterTail w prevOk n u = enterTail w2 prevOk n u := by
  cases u with
  | nil => rfl
  | cons c1 u1 =>
  cases u1 with
  | nil => rfl
  | cons c2 u2 =>
  cases u2 with
  | nil => rfl
  | cons c3 u3 =>
  cases u3 with
  | nil => rfl
  | cons c4 u4 =>
  cases u4 with
  | nil => rfl
  | cons c5 rest =>
  cases rest with
  | nil => rfl
  | cons d r =>
    have hd : w d = w2 d := hu d (by simp)
    simp [enterTail, hd]

theorem matchAtPos_congr (w w2 : Char → Bool) (s : List Char) (j : Nat)
    (h : ∀ c ∈ s, w c = w2 c) :
    matchAtPos w s j = matchAtPos w2 s j := by
  unfold matchAtPos matchCore
  have hprev : (match (s.take j).getLast? with
        | none => true
        | some p => !w p)
      = (match (s.take j).getLast? with
        | none => true
        | some p => !w2 p) := by
    cases hlast : (s.take j).getLast? with
    | none => rfl
    | some p =>
      have hp : p ∈ s := List.mem_of_mem_take (List.mem_of_mem_getLast? hlast)
      simp [h p hp]
  rw [hprev]
  exact enterTail_congr w w2 _ _ _
    (fun c hc => h c (List.mem_of_mem_drop (List.mem_of_mem_drop hc)))

theorem findEnterStart_congr (w w2 : Char → Bool) (s : List Char)
    (h : ∀ c ∈ s, w c = w2 c) :
    findEnterStart w s = findEnterStart w2 s := by
  unfold findEnterStart
  have hfun : (fun j => matchAtPos w s j) = (fun j => matchAtPos w2 s j) :=
    funext (fun j => matchAtPos_congr w w2 s j h)
  rw [hfun]

theorem finalize_transcript_congr (w w2 : Char → Bool) (s : List Char)
    (h : ∀ c ∈ s, w c = w2 c) :
    finalize_transcript w s = finalize_transcript w2 s := by
  unfold finalize_transcript
  rw [findEnterStart_congr w w2 s h]

/-- C4: for every word-character class agreeing with `\w` on the ASCII range
(as the regex crate's Unicode class does), `finalize_transcript` presses the
commit (Enter) key exactly once iff the tracked text ends with the
case-insensitive whole word "enter", optionally preceded by whitespace and
optionally followed by a run of punctuation and/or whitespace anchored at
the end; in that case it first backspaces once per character of the matched
suffix (which runs from the leftmost match start to the end) and then
commits; on "entering" / "center" / "enterprise" suffixes and mid-sentence
"enter" it issues no operation at all; in every case the tracked text is
empty afterwards. -/
theorem finalize_transcript_enter_command (isWordChar : Char → Bool)
    (hascii : ∀ c : Char, c.toNat < 128 → isWordChar c = asciiWordChar c)
    (s : List Char) :
    (countEnters (finalize_transcript isWordChar s).1 = 1
      ↔ EndsWithEnterCommand isWordChar s) ∧
    (EndsWithEnterCommand isWordChar s →
      ∃ j, findEnterStart isWordChar s = some j ∧
        (finalize_transcript isWordChar s).1
          = List.replicate (s.length - j) KeyOp.backspace ++ [KeyOp.enter]) ∧
    (¬ EndsWithEnterCommand isWordChar s →
      (finalize_transcript isWordChar s).1 = []) ∧
    (finalize_transcript isWordChar s).2 = [] ∧
    (finalize_transcript isWordChar ("hello entering".toList)).1 = [] ∧
    (finalize_transcript isWordChar ("hello center".toList)).1 = [] ∧
    (finalize_transcript isWordChar ("hello enterprise".toList)).1 = [] ∧
    (finalize_transcript isWordChar ("enter the room".toList)).1 = [] := by
  have hex : ∀ u : List Char, (∀ c ∈ u, c.toNat < 128) →
      finalize_transcript isWordChar u = finalize_transcript asciiWordChar u :=
    fun u hu => finalize_transcript_congr _ _ u (fun c hc => hascii c (hu c hc))
  have e1 : (finalize_transcript isWordChar ("hello entering".toList)).1 = [] := by
    rw [hex _ (by decide)]; decide
  have e2 : (finalize_transcript isWordChar ("hello center".toList)).1 = [] := by
    rw [hex _ (by decide)]; decide
  have e3 : (finalize_transcript isWordChar ("hello enterprise".toList)).1 = [] := by
    rw [hex _ (by decide)]; decide
  have e4 : (finalize_transcript isWordChar ("enter the room".toList)).1 = [] := by
    rw [hex _ (by decide)]; decide
  have hiff := findEnterStart_isSome_iff isWordChar s
  cases hfind : findEnterStart isWordChar s with
  | some j =>
    have hEnds : EndsWithEnterCommand isWordChar s := hiff.mp (by simp [hfind])
    refine ⟨?_, ?_, ?_, ?_, e1, e2, e3, e4⟩
    · exact ⟨fun _ => hEnds, fun _ => by
        simp [finalize_transcript, hfind, countEnters, List.countP_append,
          countP_replicate, KeyOp.isEnter, List.countP_cons]⟩
    · exact fun _ => ⟨j, rfl, by simp [finalize_transcript, hfind]⟩
    · exact fun hn => absurd hEnds hn
    · simp [finalize_transcript, hfind]
  | none =>
    have hnot : ¬ EndsWithEnterCommand isWordChar s := by
      intro h
      have := hiff.mpr h
      simp [hfind] at this
    refine ⟨?_, ?_, ?_, ?_, e1, e2, e3, e4⟩
    · refine ⟨fun hc => ?_, fun h => absurd h hnot⟩
      exfalso
      simp [finalize_transcript, hfind, countEnters] at hc
    · exact fun h => absurd h hnot
    · intro _; simp [finalize_transcript, hfind]
    · simp [finalize_transcript, hfind]

/-- Witness for C4 at the word class instantiated to its ASCII restriction
and the tracked text "hi enter": the spec-level trigger predicate holds, the
leftmost match starts at position 2 (the space before "enter"), and finalize
issues six backspaces then one commit and clears the tracked text. -/
theorem finalize_transcript_enter_command_witness :
    EndsWithEnterCommand asciiWordChar ("hi enter".toList) ∧
    (finalize_transcript asciiWordChar ("hi enter".toList)).1
      = List.replicate 6 KeyOp.backspace ++ [KeyOp.enter] ∧
    (finalize_transcript asciiWordChar ("hi enter".toList)).2 = [] := by
  have hE : EndsWithEnterCommand asciiWordChar ("hi enter".toList) := by
    refine ⟨['h', 'i'], [' '], [], 'e', 'n', 't', 'e', 'r',
      by decide, by decide, by decide, by decide, by decide, by decide, by decide,
      by simp, ?_, ?_⟩
    · intro h; exact absurd h (by decide)
    · intro d hd; exact Option.noConfusion hd
  obtain ⟨j, hj, hops⟩ :=
    (finalize_transcript_enter_command asciiWordChar (fun c _ => rfl)
      ("hi enter".toList)).2.1 hE
  have hfind : findEnterStart asciiWordChar ("hi enter".toList) = some 2 := by decide
  have hj2 : j = 2 := by
    rw [hfind] at hj
    exact (Option.some.inj hj).symm
  subst hj2
  refine ⟨hE, ?_,
    (finalize_transcript_enter_command asciiWordChar (fun c _ => rfl)
      ("hi enter".toList)).2.2.2.1⟩
  simpa using hops

/-- C6: in the receive loop, once a fatal inbound event occurs (unparseable
text frame, server `Error` message, binary frame, or transport read error),
no result is ever delivered to the callback for any later frame: the results
delivered for the whole sequence are exactly those delivered up to and
including the first fatal event. -/
theorem receive_task_no_results_after_fatal (ev : InboundEvent)
    (post : List InboundEvent) (h : fatalEvent ev = true) :
    ∀ pre : List InboundEvent,
      (receive_task (pre ++ ev :: post)).1 = (receive_task (pre ++ [ev])).1 := by
  intro pre
  induction pre with
  | nil =>
    cases ev with
    | textOk m =>
      cases m with
      | connected a b => simp [fatalEvent] at h
      | turnInfo a b c d e f g i k => simp [fatalEvent] at h
      | error a b c d => simp [receive_task]
      | configuration a b => simp [fatalEvent] at h
    | textBad r => simp [receive_task]
    | binary => simp [receive_task]
    | close => simp [fatalEvent] at h
    | other => simp [fatalEvent] at h
    | readErr e => simp [receive_task]
  | cons e rest ih =>
    cases e with
    | textOk m =>
      cases m with
      | connected a b => simpa [receive_task] using ih
      | turnInfo a b c d e2 f g i k => simpa [receive_task] using ih
      | error a b c d => simp [receive_task]
      | configuration a b => simpa [receive_task] using ih
    | textBad r => simp [receive_task]
    | binary => simp [receive_task]
    | close => simp [receive_task]
    | other => simpa [receive_task] using ih
    | readErr e2 => simp [receive_task]

/-- Witness for C6: with one delivered turn before a fatal binary frame and
another turn after it, the delivered results are the same as if the sequence
had stopped at the fatal frame. -/
theorem receive_task_no_results_after_fatal_witness :
    fatalEvent InboundEvent.binary = true ∧
    (receive_task
        ([InboundEvent.textOk (ServerMessage.turnInfo "r" 1 "Update" 0 0 0 "hi" [] 0)]
          ++ InboundEvent.binary
            :: [InboundEvent.textOk (ServerMessage.turnInfo "r" 2 "Update" 0 0 0 "bye" [] 0)])).1
      = (receive_task
          ([InboundEvent.textOk (ServerMessage.turnInfo "r" 1 "Update" 0 0 0 "hi" [] 0)]
            ++ [InboundEvent.binary])).1 :=
  ⟨rfl, receive_task_no_results_after_fatal InboundEvent.binary _ rfl _⟩

/-- C2 (code bug): a sub-task that finishes with an application error does
not make the completion handle resolve with that error.  Here the receiver
fails on an unparseable text frame, the sender's result is `Ok(())`, yet the
session resolves `Ok(())`: the binding of `tokio::try_join!`'s value to
underscore-prefixed names discards the sub-task `Result`s, so only a
`JoinError` (panic/abort) can surface. -/
theorem session_result_discards_subtask_errors :
    (receive_task [InboundEvent.textBad "oops"]).2
      = Except.error "invalid server JSON" ∧
    session_result (Except.ok (Except.ok ()))
        (Except.ok (receive_task [InboundEvent.textBad "oops"]).2)
      = Except.ok () :=
  ⟨rfl, rfl⟩

theorem send_task_ok (net : Nat → Except String Unit) (chunks : List (List Nat)) :
    ∀ i : Nat, (∀ k, k ≤ chunks.length → net (i + k) = Except.ok ()) →
      send_task net i chunks
        = (chunks.map OutFrame.binary ++ [OutFrame.text closeStreamMsg],
           Except.ok ()) := by
  induction chunks with
  | nil =>
    intro i h
    have h0 : net i = Except.ok () := by simpa using h 0 (by simp)
    simp [send_task, h0]
  | cons c cs ih =>
    intro i h
    have h0 : net i = Except.ok () := by simpa using h 0 (by simp)
    have hrec := ih (i + 1) (fun k hk => by
      have := h (k + 1) (by simpa using Nat.succ_le_succ hk)
      simpa [Nat.add_assoc, Nat.add_comm, Nat.add_left_comm] using this)
    simp [send_task, h0, hrec]

theorem send_task_err (net : Nat → Except String Unit) (chunks : List (List Nat)) :
    ∀ (i k : Nat) (e : String), k ≤ chunks.length →
      (∀ m, m < k → net (i + m) = Except.ok ()) →
      net (i + k) = Except.error e →
      send_task net i chunks = ((chunks.take k).map OutFrame.binary, Except.error e) := by
  induction chunks with
  | nil =>
    intro i k e hk hok he
    have hk0 : k = 0 := Nat.le_zero.mp hk
    subst hk0
    simp only [Nat.add_zero] at he
    simp [send_task, he]
  | cons c cs ih =>
    intro i k e hk hok he
    cases k with
    | zero =>
      simp only [Nat.add_zero] at he
      simp [send_task, he]
    | succ m =>
      have h0 : net i = Except.ok () := by simpa using hok 0 (Nat.succ_pos m)
      have hrec := ih (i + 1) m e (by simpa using Nat.le_of_succ_le_succ hk)
        (fun n hn => by
          have := hok (n + 1) (Nat.succ_lt_succ hn)
          simpa [Nat.add_assoc, Nat.add_comm, Nat.add_left_comm] using this)
        (by simpa [Nat.add_assoc, Nat.add_comm, Nat.add_left_comm] using he)
      simp [send_task, h0, hrec]

/-- C8: with the audio queue holding `chunks` and then closing, the sender
emits exactly those chunks as binary frames in order followed by exactly one
`CloseStream` text frame when every send succeeds (and nothing after it, in
particular no connection close); if a send fails, the task stops with that
error, having emitted exactly the previously sent frames, retrying nothing. -/
theorem send_task_frames (chunks : List (List Nat)) (net : Nat → Except String Unit) :
    ((∀ i, i ≤ chunks.length → net i = Except.ok ()) →
      send_task net 0 chunks
        = (chunks.map OutFrame.binary ++ [OutFrame.text closeStreamMsg],
           Except.ok ())) ∧
    (∀ k e, k ≤ chunks.length → (∀ i, i < k → net i = Except.ok ()) →
      net k = Except.error e →
      send_task net 0 chunks
        = ((chunks.take k).map OutFrame.binary, Except.error e)) := by
  constructor
  · intro h
    exact send_task_ok net chunks 0 (fun k hk => by simpa using h k hk)
  · intro k e hk hok he
    exact send_task_err net chunks 0 k e hk (fun m hm => by simpa using hok m hm)
      (by simpa using he)

/-- Witness for C8: two queued chunks over a never-failing link produce two
binary frames then one CloseStream text frame and succeed; over a link whose
second send fails, only the first frame is emitted and the error surfaces. -/
theorem send_task_frames_witness :
    send_task (fun _ => Except.ok ()) 0 [[1], [2]]
      = ([OutFrame.binary [1], OutFrame.binary [2], OutFrame.text closeStreamMsg],
         Except.ok ()) ∧
    send_task (fun i => if i = 0 then Except.ok () else Except.error "io") 0 [[1], [2]]
      = ([OutFrame.binary [1]], Except.error "io") := by
  constructor
  · simpa using (send_task_frames [[1], [2]] (fun _ => Except.ok ())).1 (fun i _ => rfl)
  · simpa using (send_task_frames [[1], [2]]
      (fun i => if i = 0 then Except.ok () else Except.error "io")).2 1 "io"
      (by decide) (fun i hi => by interval_cases i; rfl) rfl

/-- C9: a present, non-empty authentication secret is attached as a
Token-style Authorization header and the connection proceeds; a secret whose
constructed header value is invalid makes the pre-connection phase fail with
the fatal configuration error, so no connection is attempted. -/
theorem connect_auth_header (key : List Nat) (hne : key ≠ []) :
    ((tokenHeaderValue key).all headerByteValid = true →
      connect_and_transcribe_start (some key)
        = StartAction.connect (some (tokenHeaderValue key))) ∧
    ((tokenHeaderValue key).all headerByteValid = false →
      connect_and_transcribe_start (some key) = StartAction.configError) := by
  constructor
  · intro h
    simp [connect_and_transcribe_start, hne, h]
  · intro h
    simp [connect_and_transcribe_start, hne, h]

/-- Witness for C9: the one-byte key "a" yields a header and a connection
attempt; a key containing a newline byte yields the configuration error. -/
theorem connect_auth_header_witness :
    connect_and_transcribe_start (some [97])
      = StartAction.connect (some (tokenHeaderValue [97])) ∧
    connect_and_transcribe_start (some [10]) = StartAction.configError :=
  ⟨(connect_auth_header [97] (by decide)).1 (by decide),
   (connect_auth_header [10] (by decide)).2 (by decide)⟩

/-- C10: a `DEEPGRAM_API_KEY` that is set but empty behaves exactly like an
absent one: no Authorization header, no configuration error, and the
connection attempt proceeds. -/
theorem empty_api_key_like_absent :
    connect_and_transcribe_start (some []) = StartAction.connect none ∧
    connect_and_transcribe_start none = StartAction.connect none := by
  constructor
  · simp [connect_and_transcribe_start]
  · rfl

theorem pcmData_length (samples : List Int) :
    (pcmData samples).length = 2 * samples.length := by
  induction samples with
  | nil => rfl
  | cons v vs ih =>
    simp only [pcmData, List.map_cons, List.flatten_cons, List.length_append,
      List.length_cons] at ih ⊢
    simp only [i16ToLeBytes, List.length_cons, List.length_nil]
    omega

theorem extractChunks_spec (cs : Nat) (hcs : 0 < cs) :
    ∀ (fuel : Nat) (buf : List Nat), buf.length ≤ fuel →
      (extractChunks cs fuel buf).1.length = buf.length / cs ∧
      (∀ c ∈ (extractChunks cs fuel buf).1, c.length = cs) ∧
      (extractChunks cs fuel buf).1.flatten ++ (extractChunks cs fuel buf).2 = buf ∧
      (extractChunks cs fuel buf).2.length = buf.length % cs := by
  intro fuel
  induction fuel with
  | zero =>
    intro buf hb
    have hbuf : buf = [] := List.eq_nil_of_length_eq_zero (Nat.le_zero.mp hb)
    subst hbuf
    simp [extractChunks]
  | succ fl ih =>
    intro buf hb
    by_cases hlen : cs ≤ buf.length
    · have hcond : cs ≤ buf.length ∧ 0 < cs := ⟨hlen, hcs⟩
      have hdlen : (buf.drop cs).length = buf.length - cs := by simp
      have hfl : (buf.drop cs).length ≤ fl := by
        rw [hdlen]; omega
      obtain ⟨r1, r2, r3, r4⟩ := ih (buf.drop cs) hfl
      simp only [extractChunks, if_pos hcond]
      refine ⟨?_, ?_, ?_, ?_⟩
      · simp only [List.length_cons, r1, hdlen]
        rw [Nat.div_eq_sub_div hcs hlen]
      · intro c hc
        rcases List.mem_cons.mp hc with rfl | hmem
        · simp only [List.length_take]
          omega
        · exact r2 c hmem
      · simp only [List.flatten_cons, List.append_assoc, r3]
        exact List.take_append_drop cs buf
      · rw [r4, hdlen, Nat.mod_eq_sub_mod hlen]
    · have hcond : ¬(cs ≤ buf.length ∧ 0 < cs) := fun hc => hlen hc.1
      have hltlen : buf.length < cs := Nat.lt_of_not_le hlen
      simp only [extractChunks, if_neg hcond]
      refine ⟨?_, ?_, ?_, ?_⟩
      · simp [Nat.div_eq_of_lt hltlen]
      · intro c hc; simp at hc
      · simp
      · simp [Nat.mod_eq_of_lt hltlen]

theorem add_samples_counts (b : AudioBuffer) (samples : List Int)
    (hcs : 0 < b.chunk_size) :
    (b.add_samples samples).1.length
      = (b.buffer.length + 2 * samples.length) / b.chunk_size ∧
    (∀ c ∈ (b.add_samples samples).1, c.length = b.chunk_size) ∧
    (b.add_samples samples).2.buffer.length
      = (b.buffer.length + 2 * samples.length) % b.chunk_size := by
  obtain ⟨r1, r2, r3, r4⟩ := extractChunks_spec b.chunk_size hcs
    (b.buffer ++ pcmData samples).length (b.buffer ++ pcmData samples) (le_refl _)
  have hl : (b.buffer ++ pcmData samples).length
      = b.buffer.length + 2 * samples.length := by
    simp [pcmData_length]
  exact ⟨by simpa [AudioBuffer.add_samples, hl] using r1,
    by simpa [AudioBuffer.add_samples] using r2,
    by simpa [AudioBuffer.add_samples, hl] using r4⟩

/-- C7: for any backlog state and any batch of samples (with a positive
configured chunk size), `add_samples` returns chunks of exactly `chunk_size`
bytes whose concatenation followed by the retained backlog is exactly the old
backlog followed by the new PCM bytes (arrival order, bytes removed from the
front, no padding fabricated), and the retained remainder is strictly shorter
than one chunk. -/
theorem add_samples_chunking_correct (b : AudioBuffer) (samples : List Int)
    (hcs : 0 < b.chunk_size) :
    (∀ c ∈ (b.add_samples samples).1, c.length = b.chunk_size) ∧
    ((b.add_samples samples).1.flatten ++ (b.add_samples samples).2.buffer
      = b.buffer ++ pcmData samples) ∧
    (b.add_samples samples).2.buffer.length < b.chunk_size ∧
    (b.add_samples samples).1.length
      = (b.buffer.length + 2 * samples.length) / b.chunk_size ∧
    (b.add_samples samples).2.chunk_size = b.chunk_size := by
  obtain ⟨r1, r2, r3, r4⟩ := extractChunks_spec b.chunk_size hcs
    (b.buffer ++ pcmData samples).length (b.buffer ++ pcmData samples) (le_refl _)
  obtain ⟨c1, c2, c3⟩ := add_samples_counts b samples hcs
  refine ⟨c2, by simpa [AudioBuffer.add_samples] using r3, ?_, c1, rfl⟩
  rw [c3]
  exact Nat.mod_lt _ hcs

/-- Witness for C7 at a buffer configured for 16000 Hz / 80 ms (chunk size
2560) fed two samples: no chunk is produced yet and the 4-byte remainder is
retained, strictly below one chunk. -/
theorem add_samples_chunking_correct_witness :
    0 < (AudioBuffer.new 16000 80).chunk_size ∧
    ((AudioBuffer.new 16000 80).add_samples [0, 5]).1.length = 0 ∧
    ((AudioBuffer.new 16000 80).add_samples [0, 5]).2.buffer.length
      < (AudioBuffer.new 16000 80).chunk_size := by
  have h := add_samples_chunking_correct (AudioBuffer.new 16000 80) [0, 5] (by decide)
  refine ⟨by decide, ?_, h.2.2.1⟩
  rw [h.2.2.2.1]
  decide

/-- C3 counterexample: feeding 3200 mono float samples to a fresh
16000 Hz / 80 ms buffer (chunk size 2560) yields 6400 PCM bytes, hence TWO
complete chunks with 1280 bytes retained — not one chunk with 640 bytes as
the claim states. -/
theorem add_samples_3200_counterexample :
    ((AudioBuffer.new 16000 80).add_samples (List.replicate 3200 0)).1.length = 2 ∧
    ((AudioBuffer.new 16000 80).add_samples (List.replicate 3200 0)).2.buffer.length
      = 1280 ∧
    ¬(((AudioBuffer.new 16000 80).add_samples (List.replicate 3200 0)).1.length = 1 ∧
      ((AudioBuffer.new 16000 80).add_samples (List.replicate 3200 0)).2.buffer.length
        = 640) := by
  obtain ⟨c1, c2, c3⟩ := add_samples_counts (AudioBuffer.new 16000 80)
    (List.replicate 3200 0) (by decide)
  have e1 : ((AudioBuffer.new 16000 80).add_samples (List.replicate 3200 0)).1.length
      = 2 := by
    rw [c1]
    simp only [AudioBuffer.new, List.length_nil, List.length_replicate]
  have e2 : ((AudioBuffer.new 16000 80).add_samples
      (List.replicate 3200 0)).2.buffer.length = 1280 := by
    rw [c3]
    simp only [AudioBuffer.new, List.length_nil, List.length_replicate]
  refine ⟨e1, e2, ?_⟩
  intro hc
  exact absurd (e1.symm.trans hc.1) (by decide)

/-- C3 amended: 3200 samples become 6400 PCM bytes, so one `add_samples` call
on the fresh 16000 Hz / 80 ms buffer returns exactly two chunks of 2560 bytes
each and retains exactly 1280 bytes in the backlog. -/
theorem add_samples_3200_two_chunks :
    ((AudioBuffer.new 16000 80).add_samples (List.replicate 3200 0)).1.length = 2 ∧
    (∀ c ∈ ((AudioBuffer.new 16000 80).add_samples (List.replicate 3200 0)).1,
      c.length = 2560) ∧
    ((AudioBuffer.new 16000 80).add_samples (List.replicate 3200 0)).2.buffer.length
      = 1280 := by
  obtain ⟨c1, c2, c3⟩ := add_samples_counts (AudioBuffer.new 16000 80)
    (List.replicate 3200 0) (by decide)
  refine ⟨?_, ?_, ?_⟩
  · rw [c1]
    simp only [AudioBuffer.new, List.length_nil, List.length_replicate]
  · intro c hc
    have := c2 c hc
    simpa [AudioBuffer.new] using this
  · rw [c3]
    simp only [AudioBuffer.new, List.length_nil, List.length_replicate]
